import Mathlib

/-!
Verification of the `Board` class from `src/package/domino/board.py`
(a domino board: an ordered chain of tiles placed end to end).

The board's deque is embedded as a Lean `List Domino` with index 0 the
leftmost tile.  Mutating methods become explicit state passing: each
returns the new board together with an optional raised exception; the
`raise` statements of the Python code, which occur before any mutation,
are embedded as returning the incoming board unchanged together with
the exception value.
-/

/-- Modelled from the spec: the external `Domino` value type is an ordered
pair of values `(first, second)`; the spec fixes the domain as comparable
values, conventionally small non-negative integers, embedded here as `Int`. -/
structure Domino where
  first : Int
  second : Int
deriving DecidableEq, Repr

/-- Modelled from the spec: `inverted()` returns `(second, first)` — a new
value, not a mutation. -/
def Domino.inverted (d : Domino) : Domino := ⟨d.second, d.first⟩

/-- Modelled from the spec: the external string form `[first|second]` of a
domino tile. -/
def Domino.toStr (d : Domino) : String :=
  "[" ++ toString d.first ++ "|" ++ toString d.second ++ "]"

/-- The two exception types raised by the board
(`domino.EmptyBoardException`, `domino.EndsMismatchException`). -/
inductive DominoError where
  | emptyBoardException
  | endsMismatchException
deriving DecidableEq, Repr

deriving instance DecidableEq for Except

/-- The board state: `self.board`, a deque of dominoes, index 0 leftmost. -/
abbrev Board := List Domino

/-- `Board.left_end`: returns `self.board[0].first`, or raises
`EmptyBoardException` when the indexing fails (empty board). -/
def left_end : Board → Except DominoError Int
  | [] => .error .emptyBoardException
  | t :: _ => .ok t.first

/-- `Board.right_end`: returns `self.board[-1].second`, or raises
`EmptyBoardException` when the indexing fails (empty board). -/
def right_end (b : Board) : Except DominoError Int :=
  match b.getLast? with
  | none => .error .emptyBoardException
  | some t => .ok t.second

/-- `Board.__len__`: `len(self.board)`. -/
def length (b : Board) : Nat := b.length

/-- `Board.add_left`: if the board is falsy (empty), `append(d)`; else if
`d.first == self.left_end()`, `appendleft(d.inverted())`; else if
`d.second == self.left_end()`, `appendleft(d)`; else raise
`EndsMismatchException` (the board is untouched by the raise). -/
def add_left (b : Board) (d : Domino) : Board × Option DominoError :=
  if length b = 0 then (b ++ [d], none)
  else
    match left_end b with
    | .error e => (b, some e)
    | .ok L =>
      if d.first = L then (d.inverted :: b, none)
      else if d.second = L then (d :: b, none)
      else (b, some .endsMismatchException)

/-- `Board.add_right`: if the board is falsy (empty), `append(d)`; else if
`d.first == self.right_end()`, `append(d)`; else if
`d.second == self.right_end()`, `append(d.inverted())`; else raise
`EndsMismatchException` (the board is untouched by the raise). -/
def add_right (b : Board) (d : Domino) : Board × Option DominoError :=
  if length b = 0 then (b ++ [d], none)
  else
    match right_end b with
    | .error e => (b, some e)
    | .ok R =>
      if d.first = R then (b ++ [d], none)
      else if d.second = R then (b ++ [d.inverted], none)
      else (b, some .endsMismatchException)

/-- `Board.__str__`: `''.join(str(d) for d in self.board)`. -/
def render (b : Board) : String := String.join (b.map Domino.toStr)

/-- Chain continuity between two adjoining tiles: the inward face of the
left tile equals the inward face of the right tile. -/
def matches2 (t u : Domino) : Prop := t.second = u.first

/-- Chain continuity for a whole board: every adjacent pair of stored
tiles `(ti, ti+1)` satisfies `ti.second == ti+1.first`. -/
def chained (b : Board) : Prop := List.Chain' matches2 b

instance : DecidableRel matches2 := fun t u =>
  inferInstanceAs (Decidable (t.second = u.first))

instance : DecidablePred chained := fun b =>
  inferInstanceAs (Decidable (List.Chain' matches2 b))

/-- Boards reachable from the empty board by sequences of successful
`add_left` / `add_right` calls. -/
inductive Reachable : Board → Prop where
  | empty : Reachable []
  | addLeft (b : Board) (d : Domino) (b' : Board) :
      Reachable b → add_left b d = (b', none) → Reachable b'
  | addRight (b : Board) (d : Domino) (b' : Board) :
      Reachable b → add_right b d = (b', none) → Reachable b'

/-- One call to `add_left` or `add_right`. -/
inductive Op where
  | left (d : Domino)
  | right (d : Domino)

/-- Execute one insertion call on a board state. -/
def applyOp (b : Board) : Op → Board × Option DominoError
  | .left d => add_left b d
  | .right d => add_right b d

/-- Run a sequence of insertion calls, threading the board state
(failed calls leave the state as the call returned it). -/
def runOps (b : Board) : List Op → Board
  | [] => b
  | op :: ops => runOps (applyOp b op).1 ops

/-- Count the calls of a sequence that succeed (raise no exception),
threading the board state. -/
def countOk (b : Board) : List Op → Nat
  | [] => 0
  | op :: ops =>
      (if (applyOp b op).2 = none then 1 else 0) + countOk (applyOp b op).1 ops

-- Basic unfolding lemmas ----------------------------------------------------

theorem add_left_nil (d : Domino) : add_left [] d = ([d], none) := rfl

theorem add_right_nil (d : Domino) : add_right [] d = ([d], none) := rfl

theorem left_end_cons (t : Domino) (ts : Board) :
    left_end (t :: ts) = .ok t.first := rfl

theorem right_end_ne_nil (b : Board) (h : b ≠ []) :
    right_end b = .ok (b.getLast h).second := by
  unfold right_end
  rw [List.getLast?_eq_getLast b h]

theorem add_left_cons (t : Domino) (ts : Board) (d : Domino) :
    add_left (t :: ts) d =
      if d.first = t.first then (d.inverted :: t :: ts, none)
      else if d.second = t.first then (d :: t :: ts, none)
      else (t :: ts, some .endsMismatchException) := by
  simp [add_left, length, left_end]

theorem add_right_ne_nil (b : Board) (h : b ≠ []) (d : Domino) :
    add_right b d =
      if d.first = (b.getLast h).second then (b ++ [d], none)
      else if d.second = (b.getLast h).second then (b ++ [d.inverted], none)
      else (b, some .endsMismatchException) := by
  unfold add_right
  rw [right_end_ne_nil b h]
  simp [length, List.length_eq_zero]
  intro hb
  exact absurd hb h

theorem right_end_append (b : Board) (d : Domino) :
    right_end (b ++ [d]) = .ok d.second := by
  unfold right_end
  rw [List.getLast?_concat]

theorem left_end_append (b : Board) (h : b ≠ []) (d : Domino) :
    left_end (b ++ [d]) = left_end b := by
  cases b with
  | nil => exact absurd rfl h
  | cons t ts => rfl

theorem right_end_cons (t : Domino) (b : Board) (h : b ≠ []) :
    right_end (t :: b) = right_end b := by
  cases b with
  | nil => exact absurd rfl h
  | cons u us => unfold right_end; rw [List.getLast?_cons_cons]

-- Claim theorems ------------------------------------------------------------

/-- Claim C2: `add_left(d)` behaves exactly as specified: on an empty board
it inserts `d` as the sole tile in its given orientation; on a non-empty
board with left end `L`, if `d.first == L` it inserts `d.inverted()` at
position 0, else if `d.second == L` it inserts `d` unchanged at position 0,
and otherwise it fails with `EndsMismatchError`; the first-face check
precedes the second-face check. -/
theorem add_left_spec (b : Board) (d : Domino) :
    (b = [] → add_left b d = ([d], none)) ∧
    ∀ t ts, b = t :: ts →
      (d.first = t.first → add_left b d = (d.inverted :: b, none)) ∧
      (d.first ≠ t.first → d.second = t.first → add_left b d = (d :: b, none)) ∧
      (d.first ≠ t.first → d.second ≠ t.first →
        add_left b d = (b, some .endsMismatchException)) := by
  constructor
  · rintro rfl; exact add_left_nil d
  · rintro t ts rfl
    refine ⟨?_, ?_, ?_⟩
    · intro h1; rw [add_left_cons]; simp [h1]
    · intro h1 h2; rw [add_left_cons]; simp [h1, h2]
    · intro h1 h2; rw [add_left_cons]; simp [h1, h2]

/-- Witness for C2 at the empty board and the tile `(1,2)`. -/
theorem add_left_spec_witness :
    add_left [] ⟨1, 2⟩ = ([⟨1, 2⟩], none) :=
  (add_left_spec [] ⟨1, 2⟩).1 rfl

/-- Claim C3: `add_right(d)` behaves exactly as specified: on an empty board
it appends `d` unchanged; on a non-empty board with right end `R`, if
`d.first == R` it appends `d` unchanged, else if `d.second == R` it appends
`d.inverted()`, and otherwise it fails with `EndsMismatchError`. -/
theorem add_right_spec (b : Board) (d : Domino) :
    (b = [] → add_right b d = ([d], none)) ∧
    ∀ _ : b ≠ [], ∀ R, right_end b = .ok R →
      (d.first = R → add_right b d = (b ++ [d], none)) ∧
      (d.first ≠ R → d.second = R → add_right b d = (b ++ [d.inverted], none)) ∧
      (d.first ≠ R → d.second ≠ R →
        add_right b d = (b, some .endsMismatchException)) := by
  constructor
  · rintro rfl; exact add_right_nil d
  · intro h R hR
    have hR' : R = (b.getLast h).second := by
      rw [right_end_ne_nil b h] at hR
      exact (Except.ok.inj hR).symm
    subst hR'
    refine ⟨?_, ?_, ?_⟩
    · intro h1; rw [add_right_ne_nil b h]; simp [h1]
    · intro h1 h2; rw [add_right_ne_nil b h]; simp [h1, h2]
    · intro h1 h2; rw [add_right_ne_nil b h]; simp [h1, h2]

/-- Witness for C3 at the board `[2|5]` and the tile `(5,7)`. -/
theorem add_right_spec_witness :
    add_right [⟨2, 5⟩] ⟨5, 7⟩ = ([⟨2, 5⟩, ⟨5, 7⟩], none) :=
  ((add_right_spec [⟨2, 5⟩] ⟨5, 7⟩).2 (by decide) 5 rfl).1 rfl

/-- Claim C4: for every board, `left_end()` returns `tiles[0].first` and
`right_end()` returns `tiles[n-1].second` when the board has at least one
tile, and both fail with `EmptyBoardError` exactly when the board has zero
tiles (the embedding is pure, so neither call modifies the board). -/
theorem ends_spec (b : Board) :
    (left_end b = .error .emptyBoardException ↔ length b = 0) ∧
    (right_end b = .error .emptyBoardException ↔ length b = 0) ∧
    (∀ t ts, b = t :: ts → left_end b = .ok t.first) ∧
    (∀ h : b ≠ [], right_end b = .ok (b.getLast h).second) := by
  cases b with
  | nil =>
    refine ⟨by simp [left_end, length], by simp [right_end, length], ?_, ?_⟩
    · intro t ts h; exact absurd h (by simp)
    · intro h; exact absurd rfl h
  | cons t ts =>
    have hne : t :: ts ≠ ([] : Board) := by simp
    refine ⟨?_, ?_, ?_, ?_⟩
    · simp [left_end, length]
    · rw [right_end_ne_nil _ hne]; simp [length]
    · intro u us h
      rw [h]; exact left_end_cons u us
    · intro h; exact right_end_ne_nil _ h

/-- Witness for C4 at the board `[1|2]`. -/
theorem ends_spec_witness :
    left_end [⟨1, 2⟩] = .ok 1 ∧ right_end [⟨1, 2⟩] = .ok 2 := by
  refine ⟨(ends_spec [⟨1, 2⟩]).2.2.1 ⟨1, 2⟩ [] rfl, ?_⟩
  have h := (ends_spec [⟨1, 2⟩]).2.2.2 (by decide)
  simpa using h

/-- Claim C7: `render()` returns the concatenation, left to right in board
order with no separators, of each stored tile's bracketed `[first|second]`
string form, and returns the empty text for the empty board. -/
theorem render_spec :
    render ([] : Board) = "" ∧
    ∀ (t : Domino) (ts : Board), render (t :: ts) = t.toStr ++ render ts := by
  constructor
  · rfl
  · intro t ts
    simp [render, String.join_eq, List.map_cons]
    rfl

/-- Claim C8: concrete scenario: starting from an empty board,
`add_left(Domino(1,2))` succeeds giving board `[1|2]` with `left_end()==1`,
`right_end()==2`, `length()==1`; then `add_right(Domino(1,3))` fails with
`EndsMismatchError`; then `add_left(Domino(1,3))` succeeds giving board
`[3|1][1|2]` with `left_end()==3`, `right_end()==2`, `length()==2`. -/
theorem concrete_scenario :
    add_left [] ⟨1, 2⟩ = ([⟨1, 2⟩], none) ∧
    left_end [⟨1, 2⟩] = .ok 1 ∧ right_end [⟨1, 2⟩] = .ok 2 ∧
    length [⟨1, 2⟩] = 1 ∧ render [⟨1, 2⟩] = "[1|2]" ∧
    add_right [⟨1, 2⟩] ⟨1, 3⟩ = ([⟨1, 2⟩], some .endsMismatchException) ∧
    add_left [⟨1, 2⟩] ⟨1, 3⟩ = ([⟨3, 1⟩, ⟨1, 2⟩], none) ∧
    left_end [⟨3, 1⟩, ⟨1, 2⟩] = .ok 3 ∧ right_end [⟨3, 1⟩, ⟨1, 2⟩] = .ok 2 ∧
    length [⟨3, 1⟩, ⟨1, 2⟩] = 2 ∧ render [⟨3, 1⟩, ⟨1, 2⟩] = "[3|1][1|2]" := by
  decide

theorem add_left_fst_of_err (b : Board) (d : Domino) (e : DominoError)
    (h : (add_left b d).2 = some e) : (add_left b d).1 = b := by
  cases b with
  | nil => simp [add_left_nil] at h
  | cons t ts =>
    rw [add_left_cons] at h ⊢
    by_cases h1 : d.first = t.first
    · simp [h1] at h
    · by_cases h2 : d.second = t.first
      · simp [h1, h2] at h
      · simp [h1, h2]

theorem add_right_fst_of_err (b : Board) (d : Domino) (e : DominoError)
    (h : (add_right b d).2 = some e) : (add_right b d).1 = b := by
  cases b with
  | nil => simp [add_right_nil] at h
  | cons t ts =>
    have hne : t :: ts ≠ ([] : Board) := by simp
    rw [add_right_ne_nil _ hne] at h ⊢
    by_cases h1 : d.first = ((t :: ts).getLast hne).second
    · simp [h1] at h
    · by_cases h2 : d.second = ((t :: ts).getLast hne).second
      · simp [h1, h2] at h
      · simp [h1, h2]

/-- Claim C5: atomic rejection: whenever `add_left` or `add_right` fails
with `EndsMismatchError`, the board's tile sequence is exactly as it was
before the call, so `length()`, `left_end()`, `right_end()` and `render()`
are all unchanged; the board is mutated only on success. -/
theorem atomic_rejection (b : Board) (d : Domino) (e : DominoError) :
    ((add_left b d).2 = some e →
      (add_left b d).1 = b ∧
      length (add_left b d).1 = length b ∧
      left_end (add_left b d).1 = left_end b ∧
      right_end (add_left b d).1 = right_end b ∧
      render (add_left b d).1 = render b) ∧
    ((add_right b d).2 = some e →
      (add_right b d).1 = b ∧
      length (add_right b d).1 = length b ∧
      left_end (add_right b d).1 = left_end b ∧
      right_end (add_right b d).1 = right_end b ∧
      render (add_right b d).1 = render b) := by
  constructor
  · intro h
    have hb := add_left_fst_of_err b d e h
    rw [hb]
    exact ⟨rfl, rfl, rfl, rfl, rfl⟩
  · intro h
    have hb := add_right_fst_of_err b d e h
    rw [hb]
    exact ⟨rfl, rfl, rfl, rfl, rfl⟩

/-- Witness for C5: `add_left` of `(5,6)` on the board `[1|2]` fails and
leaves the board unchanged. -/
theorem atomic_rejection_witness :
    (add_left [⟨1, 2⟩] ⟨5, 6⟩).2 = some .endsMismatchException ∧
    (add_left [⟨1, 2⟩] ⟨5, 6⟩).1 = [⟨1, 2⟩] :=
  ⟨by decide,
   ((atomic_rejection [⟨1, 2⟩] ⟨5, 6⟩ .endsMismatchException).1 (by decide)).1⟩

/-- Claim C9: orientation round trip: adding tile `(x,y)` on the left of a
board whose left end is `x` yields new left end `y`, and on a board whose
left end is `y` yields new left end `x`; symmetrically for `add_right`
with respect to the right end. -/
theorem orientation_round_trip (b : Board) (x y : Int) :
    (left_end b = .ok x → left_end (add_left b ⟨x, y⟩).1 = .ok y) ∧
    (left_end b = .ok y → left_end (add_left b ⟨x, y⟩).1 = .ok x) ∧
    (right_end b = .ok x → right_end (add_right b ⟨x, y⟩).1 = .ok y) ∧
    (right_end b = .ok y → right_end (add_right b ⟨x, y⟩).1 = .ok x) := by
  refine ⟨?_, ?_, ?_, ?_⟩
  · intro h
    cases b with
    | nil => simp [left_end] at h
    | cons t ts =>
      rw [left_end_cons] at h
      have hx : t.first = x := Except.ok.inj h
      rw [add_left_cons]
      simp [hx, Domino.inverted, left_end]
  · intro h
    cases b with
    | nil => simp [left_end] at h
    | cons t ts =>
      rw [left_end_cons] at h
      have hy : t.first = y := Except.ok.inj h
      rw [add_left_cons]
      by_cases hxy : x = y
      · simp [hy, hxy, Domino.inverted, left_end]
      · simp [hy, hxy, Domino.inverted, left_end]
  · intro h
    have hne : b ≠ [] := by
      rintro rfl; simp [right_end] at h
    rw [right_end_ne_nil b hne] at h
    have hx : (b.getLast hne).second = x := Except.ok.inj h
    rw [add_right_ne_nil b hne]
    simp [hx, right_end_append]
  · intro h
    have hne : b ≠ [] := by
      rintro rfl; simp [right_end] at h
    rw [right_end_ne_nil b hne] at h
    have hy : (b.getLast hne).second = y := Except.ok.inj h
    rw [add_right_ne_nil b hne]
    by_cases hxy : x = y
    · simp [hy, hxy, right_end_append]
    · simp [hy, hxy, right_end_append, Domino.inverted]

/-- Witness for C9 at the board `[1|2]` and the tile `(1,3)` on the left. -/
theorem orientation_round_trip_witness :
    left_end (add_left [⟨1, 2⟩] ⟨1, 3⟩).1 = .ok 3 :=
  (orientation_round_trip [⟨1, 2⟩] 1 3).1 rfl

theorem add_left_success_shape (t : Domino) (ts b' : Board) (d : Domino)
    (h : add_left (t :: ts) d = (b', none)) :
    b' = d.inverted :: t :: ts ∨ b' = d :: t :: ts := by
  rw [add_left_cons] at h
  by_cases h1 : d.first = t.first
  · simp [h1] at h; exact Or.inl h.symm
  · by_cases h2 : d.second = t.first
    · simp [h1, h2] at h; exact Or.inr h.symm
    · simp [h1, h2] at h

theorem add_right_success_shape (b : Board) (hb : b ≠ []) (b' : Board)
    (d : Domino) (h : add_right b d = (b', none)) :
    b' = b ++ [d] ∨ b' = b ++ [d.inverted] := by
  rw [add_right_ne_nil b hb] at h
  by_cases h1 : d.first = (b.getLast hb).second
  · simp [h1] at h; exact Or.inl h.symm
  · by_cases h2 : d.second = (b.getLast hb).second
    · simp [h1, h2] at h; exact Or.inr h.symm
    · simp [h1, h2] at h

/-- Claim C10: frame property: a successful `add_left` on a non-empty board
leaves `right_end()` unchanged and leaves every previously stored tile in
place shifted one position rightward (the new board's tail is the old
board); a successful `add_right` on a non-empty board leaves `left_end()`
unchanged and every previously stored tile at its same position (the new
board's first `length b` entries are the old board); each successful call
adds exactly one tile. -/
theorem frame_property (b : Board) (d : Domino) (b' : Board) :
    (b ≠ [] → add_left b d = (b', none) →
      right_end b' = right_end b ∧ length b' = length b + 1 ∧ b'.tail = b) ∧
    (b ≠ [] → add_right b d = (b', none) →
      left_end b' = left_end b ∧ length b' = length b + 1 ∧
      b'.take (length b) = b) := by
  constructor
  · intro hb h
    cases b with
    | nil => exact absurd rfl hb
    | cons t ts =>
      rcases add_left_success_shape t ts b' d h with h' | h' <;>
        subst h' <;>
        exact ⟨right_end_cons _ _ (by simp), by simp [length], rfl⟩
  · intro hb h
    rcases add_right_success_shape b hb b' d h with h' | h' <;>
      subst h' <;>
      exact ⟨left_end_append b hb _, by simp [length],
        by simp [length, List.take_left]⟩

/-- Witness for C10: adding `(2,9)` on the right of `[1|2]`. -/
theorem frame_property_witness :
    left_end (add_right [⟨1, 2⟩] ⟨2, 9⟩).1 = left_end [⟨1, 2⟩] ∧
    length (add_right [⟨1, 2⟩] ⟨2, 9⟩).1 = 2 :=
  ⟨((frame_property [⟨1, 2⟩] ⟨2, 9⟩ [⟨1, 2⟩, ⟨2, 9⟩]).2 (by decide) (by decide)).1,
   ((frame_property [⟨1, 2⟩] ⟨2, 9⟩ [⟨1, 2⟩, ⟨2, 9⟩]).2 (by decide) (by decide)).2.1⟩

theorem chained_add_left (t : Domino) (ts : Board) (d : Domino) (b' : Board)
    (hc : chained (t :: ts)) (h : add_left (t :: ts) d = (b', none)) :
    chained b' := by
  rw [add_left_cons] at h
  by_cases h1 : d.first = t.first
  · simp [h1] at h
    subst h
    exact (List.chain'_cons).2 ⟨h1, hc⟩
  · by_cases h2 : d.second = t.first
    · simp [h1, h2] at h
      subst h
      exact (List.chain'_cons).2 ⟨h2, hc⟩
    · simp [h1, h2] at h

theorem chained_add_right (b : Board) (hb : b ≠ []) (d : Domino) (b' : Board)
    (hc : chained b) (h : add_right b d = (b', none)) : chained b' := by
  rw [add_right_ne_nil b hb] at h
  by_cases h1 : d.first = (b.getLast hb).second
  · simp [h1] at h
    subst h
    refine List.Chain'.append hc (List.chain'_singleton d) ?_
    intro x hx y hy
    rw [List.getLast?_eq_getLast b hb, Option.mem_def, Option.some_inj] at hx
    rw [List.head?_cons, Option.mem_def, Option.some_inj] at hy
    subst hx; subst hy
    exact h1.symm
  · by_cases h2 : d.second = (b.getLast hb).second
    · simp [h1, h2] at h
      subst h
      refine List.Chain'.append hc (List.chain'_singleton d.inverted) ?_
      intro x hx y hy
      rw [List.getLast?_eq_getLast b hb, Option.mem_def, Option.some_inj] at hx
      rw [List.head?_cons, Option.mem_def, Option.some_inj] at hy
      subst hx; subst hy
      exact h2.symm
    · simp [h1, h2] at h

/-- Claim C1: chain continuity invariant: every board reachable from the
empty board by successful `add_left` / `add_right` calls has every adjacent
pair of stored tiles `(ti, ti+1)` satisfying `ti.second == ti+1.first`. -/
theorem chain_continuity (b : Board) (h : Reachable b) : chained b := by
  induction h with
  | empty => exact List.chain'_nil
  | addLeft b d b' hb hstep ih =>
    cases b with
    | nil =>
      rw [add_left_nil] at hstep
      have h1 : [d] = b' := congrArg Prod.fst hstep
      rw [← h1]
      exact List.chain'_singleton d
    | cons t ts => exact chained_add_left t ts d b' ih hstep
  | addRight b d b' hb hstep ih =>
    cases b with
    | nil =>
      rw [add_right_nil] at hstep
      have h1 : [d] = b' := congrArg Prod.fst hstep
      rw [← h1]
      exact List.chain'_singleton d
    | cons t ts => exact chained_add_right (t :: ts) (by simp) d b' ih hstep

/-- Witness for C1 on the board `[1|2][2|5]` built by two successful calls. -/
theorem chain_continuity_witness : chained [⟨1, 2⟩, ⟨2, 5⟩] :=
  chain_continuity _
    (Reachable.addRight [⟨1, 2⟩] ⟨2, 5⟩ [⟨1, 2⟩, ⟨2, 5⟩]
      (Reachable.addLeft [] ⟨1, 2⟩ [⟨1, 2⟩] Reachable.empty (by decide))
      (by decide))

theorem applyOp_length (b : Board) (op : Op) :
    length (applyOp b op).1 =
      length b + (if (applyOp b op).2 = none then 1 else 0) := by
  cases op with
  | left d =>
    show length (add_left b d).1 = length b + ite ((add_left b d).2 = none) 1 0
    cases b with
    | nil => simp [add_left_nil, length]
    | cons t ts =>
      rw [add_left_cons]
      by_cases h1 : d.first = t.first
      · simp [h1, length]
      · by_cases h2 : d.second = t.first
        · simp [h1, h2, length]
        · simp [h1, h2, length]
  | right d =>
    show length (add_right b d).1 = length b + ite ((add_right b d).2 = none) 1 0
    cases b with
    | nil => simp [add_right_nil, length]
    | cons t ts =>
      have hne : t :: ts ≠ ([] : Board) := by simp
      rw [add_right_ne_nil _ hne]
      by_cases h1 : d.first = ((t :: ts).getLast hne).second
      · simp [h1, length]
      · by_cases h2 : d.second = ((t :: ts).getLast hne).second
        · simp [h1, h2, length]
        · simp [h1, h2, length]

theorem length_runOps (ops : List Op) (b : Board) :
    length (runOps b ops) = length b + countOk b ops := by
  induction ops generalizing b with
  | nil => simp [runOps, countOk]
  | cons op ops ih =>
    rw [runOps, countOk, ih, applyOp_length, Nat.add_assoc]

/-- Claim C6: `length()` never fails (it is a total function here), returns
0 for the empty board, and after any sequence of `add_left` / `add_right`
calls equals the number of those calls that succeeded. -/
theorem length_spec :
    length ([] : Board) = 0 ∧
    ∀ ops : List Op, length (runOps [] ops) = countOk [] ops := by
  refine ⟨rfl, fun ops => ?_⟩
  have h := length_runOps ops []
  simpa [length] using h
